import Mathlib

/-!
# Verification of the `shaded` mask-editing and shader-rendering core

This file gives a shallow embedding, in Lean, of the mask construction and
GPU-pipeline state machine of the `shaded` repository, and proves (or refutes)
the testable properties stated in its design document.

The embedding follows the JavaScript source:

* `MaskEditor.invert` (mask-editor.js)        → `invertData`
* `MaskEditor.setFromGLPixels`                → `setFromGLPixels`
* `MaskEditor.setFromPolygons`                → `setFromPolygonsModel`
* the stroke-interpolation handler `paint`    → `strokeStamps`
* `MaskEditor._quickSelect` flood fill        → `floodLoop` / `quickSelectFlood`
* `MaskEditor._quickSelect` grow (dilation)   → `growSelection`
* `ShaderRenderer.setShader` / `render` /
  `renderPassthrough` / `renderMaskShader`    → the `RendererState` machine

Machine bytes are modelled as `ℕ` (with explicit clamping facts as hypotheses),
pixel arithmetic as `ℤ`, and pointer coordinates as `ℚ`.  External collaborators
(the WebGL compiler, the regex sanitation pass, the 2D-canvas polygon
rasterizer) appear as explicit function parameters: the claims proved here are
independent of their behaviour.
-/

namespace Shaded

/-! ## Mask inversion (`MaskEditor.invert`)

The source walks the RGBA byte array in steps of four, replacing each of the
three colour channels by `255 - v` and leaving alpha untouched. -/

/-- One pass of `MaskEditor.invert` over the flat RGBA byte array. -/
def invertData : List ℕ → List ℕ
  | r :: g :: b :: a :: rest => (255 - r) :: (255 - g) :: (255 - b) :: a :: invertData rest
  | l => l

/-! ## GL pixel ingestion (`MaskEditor.setFromGLPixels`)

`readPixels` returns rows bottom-to-top; the source builds a top-left-origin
`ImageData` taking row `y` from input row `h - 1 - y`, replicating the red
channel into R, G and B and forcing alpha to `255`. -/

/-- The flat RGBA output array built by `setFromGLPixels` from a readback
buffer `pixels` (indexed bytewise) of logical size `width × height`. -/
def setFromGLPixels (pixels : ℕ → ℕ) (width height : ℕ) : List ℕ :=
  (List.range height).foldr (fun y acc =>
    ((List.range width).foldr (fun x racc =>
      let v := pixels (((height - 1 - y) * width + x) * 4)
      v :: v :: v :: 255 :: racc) []) ++ acc) []

/-! ## Polygon rasterization (`MaskEditor.setFromPolygons`)

The source first fills the whole canvas black, then fills each polygon with at
least three vertices white (skipping degenerate ones).  The 2D-canvas fill rule
is external; it appears as the parameter `fillsPixel`, applied to the vertex
loop scaled by the canvas dimensions. -/

/-- The mask raster (as a per-pixel grey value) produced by `setFromPolygons`
from a previous raster `mask` and a list of normalized vertex loops. -/
def setFromPolygonsModel (fillsPixel : List (ℚ × ℚ) → ℕ → ℕ → Bool)
    (w h : ℕ) (mask : ℕ → ℕ → ℕ) (polys : List (List (ℚ × ℚ))) : ℕ → ℕ → ℕ :=
  fun x y =>
    if x < w ∧ y < h then
      if polys.any (fun poly =>
          if poly.length < 3 then false
          else fillsPixel (poly.map (fun v => (v.1 * (w : ℚ), v.2 * (h : ℚ)))) x y)
      then 255 else 0
    else mask x y

/-! ## Stroke interpolation (the `paint` handler in `MaskEditor._bindEvents`)

For a pointer move from `lastPos` to `pos` the handler computes the Euclidean
distance `dist`, the step `max 1 (brushSize / 4)`, and if `dist > step` stamps
`⌈dist / step⌉` interpolated points at `t = i / steps` before stamping `pos`
itself.  `dist` (the source's `Math.sqrt(dx*dx + dy*dy)`) is passed explicitly
so the development can stay in exact rational arithmetic; the theorems
constrain it by `dist ^ 2 = dx ^ 2 + dy ^ 2`. -/

/-- The list of stamp centers laid down by one `paint` event: the interpolated
points (when `dist > step`) followed by the final stamp at `pos`. -/
def strokeStamps (lastX lastY x y dist brushSize : ℚ) : List (ℚ × ℚ) :=
  let dx := x - lastX
  let dy := y - lastY
  let step := max 1 (brushSize / 4)
  let interp :=
    if dist > step then
      let steps : ℕ := ⌈dist / step⌉.toNat
      (List.range steps).map (fun i : ℕ =>
        let t : ℚ := ((i : ℚ) + 1) / (steps : ℚ)
        (lastX + dx * t, lastY + dy * t))
    else []
  interp ++ [(x, y)]

/-- Squared Euclidean gap between consecutive points of a list, starting from
an initial point (the previous stamp at `lastPos`). -/
def maxConsecGapSq : ℚ × ℚ → List (ℚ × ℚ) → ℚ
  | _, [] => 0
  | p, q :: rest =>
      max ((q.1 - p.1) ^ 2 + (q.2 - p.2) ^ 2) (maxConsecGapSq q rest)

/-! ## The renderer state machine (`ShaderRenderer`)

The WebGL objects are modelled by what identifies them in the source: a linked
program is identified by the fragment source it was built from, the framebuffer
by the fragment source of the program that last drew into it.  The GLSL
compiler and the regex sanitation pass are parameters (`compile`, `sanitize`);
a thrown JavaScript exception is the `Option String` diagnostic paired with the
state as mutated up to the throw point. -/

/-- The mutable fields of `ShaderRenderer` relevant to program management. -/
structure RendererState where
  /-- `this.program`, identified by its (sanitized) fragment source; `none` is JS `null`. -/
  program : Option String
  /-- `this.currentShaderCode`. -/
  currentShaderCode : Option String
  /-- `this.imageLoaded`. -/
  imageLoaded : Bool
  /-- the visible framebuffer: fragment source of the program that last drew, if any. -/
  frame : Option String
  deriving DecidableEq

/-- `ShaderRenderer.render`: draws with the current program when an image is
loaded, otherwise returns without touching the framebuffer. -/
def render (st : RendererState) : RendererState :=
  match st.program, st.imageLoaded with
  | some p, true => { st with frame := some p }
  | _, _ => st

/-- `ShaderRenderer.setShader`.  The old program is deleted and the field
nulled *before* `_createProgram` runs; on compile/link failure the exception
(diagnostic `some e`) escapes with the state mutated that far. -/
def setShader (sanitize : String → String) (compile : String → Except String Unit)
    (st : RendererState) (fragmentSource : String) : RendererState × Option String :=
  let fragmentSource := sanitize fragmentSource
  let st := { st with program := none }
  match compile fragmentSource with
  | .error e => (st, some e)
  | .ok _ =>
      let st := { st with program := some fragmentSource,
                          currentShaderCode := some fragmentSource }
      (if st.imageLoaded then render st else st, none)

/-- The fixed passthrough fragment program installed by `renderPassthrough`. -/
def passthroughShader : String :=
  "precision mediump float;\nuniform sampler2D u_image;\nvarying vec2 v_texCoord;\nvoid main() \x7b\n  gl_FragColor = texture2D(u_image, v_texCoord);\n\x7d\n"

/-- `ShaderRenderer.renderPassthrough`: installs the passthrough program, then
clears `currentShaderCode` (not reached if `setShader` throws). -/
def renderPassthrough (sanitize : String → String) (compile : String → Except String Unit)
    (st : RendererState) : RendererState × Option String :=
  match setShader sanitize compile st passthroughShader with
  | (st, some e) => (st, some e)
  | (st, none) => ({ st with currentShaderCode := none }, none)

/-- `ShaderRenderer.renderMaskShader`: saves `currentShaderCode`, compiles and
renders the mask shader, reads the framebuffer back, then re-installs the saved
shader (or the passthrough).  There is no `finally`: any throw escapes at the
point it occurs.  The readback is abstracted to the framebuffer marker. -/
def renderMaskShader (sanitize : String → String) (compile : String → Except String Unit)
    (st : RendererState) (fragmentSource : String) :
    RendererState × Except String (Option String) :=
  let savedShaderCode := st.currentShaderCode
  match setShader sanitize compile st fragmentSource with
  | (st, some e) => (st, .error e)
  | (st, none) =>
      let st := render st
      let pixels := st.frame
      match savedShaderCode with
      | some code =>
          match setShader sanitize compile st code with
          | (st, some e) => (st, .error e)
          | (st, none) => (st, .ok pixels)
      | none =>
          match renderPassthrough sanitize compile st with
          | (st, some e) => (st, .error e)
          | (st, none) => (st, .ok pixels)

/-! ## Quick-select flood fill (`MaskEditor._quickSelect`)

The source runs an explicit-stack traversal over linear pixel positions
`pos = x + y * w`: the seed is marked visited and pushed; each iteration pops a
position, accepts it into `selected` when its squared RGB distance to the seed
colour is at most `3 · tolerance²`, and then pushes its unvisited in-bounds
4-neighbours (marking them visited as they are pushed).  `Uint8Array` flags
become `Finset ℕ`, the JS array-as-stack becomes a cons-front list (push = cons,
pop = head), and the `while` loop becomes fuel recursion — the fuel `w * h` is
proved sufficient below (`quickSelectFloodRun_terminates`). -/

/-- The traversal state of the flood fill: the `visited` flags, the `selected`
flags, and the work stack. -/
structure FloodState where
  visited : Finset ℕ
  selected : Finset ℕ
  queue : List ℕ
  deriving DecidableEq

/-- The in-bounds 4-neighbours of linear position `pos`, exactly as enumerated
in the source (`px = pos % w`, `py = (pos - px) / w`, bounds-checked left,
right, up, down). -/
def neighborList (w h pos : ℕ) : List ℕ :=
  let px := pos % w
  let py := (pos - px) / w
  (if 0 < px then [pos - 1] else []) ++
  (if px < w - 1 then [pos + 1] else []) ++
  (if 0 < py then [pos - w] else []) ++
  (if py < h - 1 then [pos + w] else [])

/-- Push each not-yet-visited neighbour, marking it visited as it is pushed. -/
def pushNeighbors (ns : List ℕ) (st : FloodState) : FloodState :=
  ns.foldl (fun st npos =>
    if npos ∈ st.visited then st
    else { st with visited := insert npos st.visited, queue := npos :: st.queue }) st

/-- Squared RGB distance of the pixel at linear position `pos` of the flat
source byte array `src` to the seed colour. -/
def distSqTo (src : ℕ → ℕ) (seedR seedG seedB : ℤ) (pos : ℕ) : ℤ :=
  let idx := pos * 4
  let dr := (src idx : ℤ) - seedR
  let dg := (src (idx + 1) : ℤ) - seedG
  let db := (src (idx + 2) : ℤ) - seedB
  dr * dr + dg * dg + db * db

/-- The body of one `while` iteration: pop a position, accept it into
`selected` when within tolerance and push its unvisited neighbours, else just
drop it. -/
def floodStep (src : ℕ → ℕ) (w h : ℕ) (seedR seedG seedB : ℤ) (tol : ℤ)
    (st : FloodState) : FloodState :=
  match st.queue with
  | [] => st
  | pos :: rest =>
      let st' : FloodState := { st with queue := rest }
      if distSqTo src seedR seedG seedB pos ≤ tol then
        pushNeighbors (neighborList w h pos)
          { st' with selected := insert pos st'.selected }
      else st'

/-- The `while (queue.length > 0)` loop, with explicit fuel. -/
def floodLoop (src : ℕ → ℕ) (w h : ℕ) (seedR seedG seedB : ℤ) (tol : ℤ) :
    ℕ → FloodState → FloodState
  | 0, st => st
  | fuel + 1, st =>
      if st.queue.isEmpty then st
      else floodLoop src w h seedR seedG seedB tol fuel
        (floodStep src w h seedR seedG seedB tol st)

/-- The initial flood state: the seed is visited and on the stack. -/
def floodInit (seed : ℕ) : FloodState :=
  { visited := {seed}, selected := ∅, queue := [seed] }

/-- The final traversal state of `_quickSelect`'s flood fill for seed pixel
`(ix, iy)` and tolerance `tolerance` (fuel `w * h`, proved sufficient). -/
def quickSelectFloodRun (src : ℕ → ℕ) (w h ix iy tolerance : ℕ) : FloodState :=
  let seedIdx := (iy * w + ix) * 4
  let seedR : ℤ := src seedIdx
  let seedG : ℤ := src (seedIdx + 1)
  let seedB : ℤ := src (seedIdx + 2)
  let tol : ℤ := (tolerance : ℤ) * (tolerance : ℤ) * 3
  floodLoop src w h seedR seedG seedB tol (w * h) (floodInit (ix + iy * w))

/-- The selected set produced by the flood fill, before dilation. -/
def quickSelectFlood (src : ℕ → ℕ) (w h ix iy tolerance : ℕ) : Finset ℕ :=
  (quickSelectFloodRun src w h ix iy tolerance).selected

/-! ## Quick-select growth (the dilation pass of `_quickSelect`)

With `growRadius = r > 0` the source copies `selected` into `grown`, then for
every *originally* selected pixel `(gx, gy)` sets `grown` at every in-bounds
offset `(dx, dy)` with `dx² + dy² ≤ r²`; finally `selected` is replaced by
`grown`.  Reading from the original and writing into the copy is exactly
accumulation of unions. -/

/-- The in-bounds disc of radius `r` stamped around `(gx, gy)`, as the two
inner offset loops produce it: `dy = i - r` and `dx = j - r` run from `-r` to
`r`, the offset is kept when `dx² + dy² ≤ r²`, and the in-bounds target
`(nx, ny) = (gx + dx, gy + dy)` is inserted. -/
def discStamp (w h r gx gy : ℕ) : Finset ℕ :=
  (List.range (2 * r + 1)).foldl (fun acc (i : ℕ) =>
    (List.range (2 * r + 1)).foldl (fun acc (j : ℕ) =>
      if ((j : ℤ) - r) * ((j : ℤ) - r) + ((i : ℤ) - r) * ((i : ℤ) - r) ≤ (r : ℤ) * r then
        if 0 ≤ (gx : ℤ) + ((j : ℤ) - r) ∧ (gx : ℤ) + ((j : ℤ) - r) < w ∧
            0 ≤ (gy : ℤ) + ((i : ℤ) - r) ∧ (gy : ℤ) + ((i : ℤ) - r) < h then
          insert (((gy : ℤ) + ((i : ℤ) - r)).toNat * w + ((gx : ℤ) + ((j : ℤ) - r)).toNat) acc
        else acc
      else acc) acc) ∅

/-- The grown selection: the original plus a disc stamp around every
originally selected in-bounds pixel. -/
def growSelection (w h r : ℕ) (selected : Finset ℕ) : Finset ℕ :=
  (List.range h).foldl (fun acc gy =>
    (List.range w).foldl (fun acc gx =>
      if gy * w + gx ∈ selected then acc ∪ discStamp w h r gx gy else acc) acc) selected

/-! ## Specification-side definitions used by the proofs -/

/-- The point at arithmetic-progression index `k`: start plus `k` times the
per-step displacement `(d, e)`. -/
def affinePt (c cy d e : ℚ) (k : ℕ) : ℚ × ℚ := (c + d * k, cy + e * k)

/-- Reachability from the seed through accepted pixels along the source's
4-neighbour adjacency: the declarative counterpart of the flood-fill
traversal (the seed itself must be accepted). -/
inductive Reach (ok : ℕ → Prop) (w h seed : ℕ) : ℕ → Prop where
  | seed : ok seed → Reach ok w h seed seed
  | step {p q : ℕ} : Reach ok w h seed p → q ∈ neighborList w h p → ok q →
      Reach ok w h seed q

/-- The loop invariant of the flood fill: visited positions are in bounds,
queued positions are visited, the seed is visited, selected positions are
reachable and accepted with all their neighbours visited, queued positions are
the seed or neighbours of selected ones, and every visited position is either
still queued or already settled. -/
structure FloodInv (ok : ℕ → Prop) (w h seed : ℕ) (st : FloodState) : Prop where
  vis_sub : ∀ p ∈ st.visited, p < w * h
  queue_vis : ∀ p ∈ st.queue, p ∈ st.visited
  seed_vis : seed ∈ st.visited
  sound_sel : ∀ p ∈ st.selected, Reach ok w h seed p
  queue_src : ∀ p ∈ st.queue, p = seed ∨ ∃ r ∈ st.selected, p ∈ neighborList w h r
  vis_q_sel : ∀ p ∈ st.visited, p ∈ st.queue ∨ (ok p → p ∈ st.selected)
  sel_ok : ∀ p ∈ st.selected, ok p
  sel_nbrs : ∀ p ∈ st.selected, ∀ q ∈ neighborList w h p, q ∈ st.visited

/-- The set stamped by one `(dy, dx)` offset pair of the dilation loops. -/
def discPt (w h r gx gy i j : ℕ) : Finset ℕ :=
  if ((j : ℤ) - r) * ((j : ℤ) - r) + ((i : ℤ) - r) * ((i : ℤ) - r) ≤ (r : ℤ) * r then
    if 0 ≤ (gx : ℤ) + ((j : ℤ) - r) ∧ (gx : ℤ) + ((j : ℤ) - r) < w ∧
        0 ≤ (gy : ℤ) + ((i : ℤ) - r) ∧ (gy : ℤ) + ((i : ℤ) - r) < h then
      {((gy : ℤ) + ((i : ℤ) - r)).toNat * w + ((gx : ℤ) + ((j : ℤ) - r)).toNat}
    else ∅
  else ∅

/-! ## Theorems -/

/-- **C8**: Mask inversion is involutive: on every mask raster whose byte
values lie in `[0, 255]`, applying `invert` twice returns the original raster
(each colour channel is mapped `v ↦ 255 - v`, alpha is untouched). -/
theorem invert_involutive (M : List ℕ) (hM : ∀ v ∈ M, v ≤ 255) :
    invertData (invertData M) = M := by
  induction M using invertData.induct with
  | case1 r g b a rest ih =>
      have hr : r ≤ 255 := hM r (by simp)
      have hg : g ≤ 255 := hM g (by simp)
      have hb : b ≤ 255 := hM b (by simp)
      have hrest : ∀ v ∈ rest, v ≤ 255 := fun v hv => hM v (by simp [hv])
      simp only [invertData, ih hrest]
      have e1 : 255 - (255 - r) = r := by omega
      have e2 : 255 - (255 - g) = g := by omega
      have e3 : 255 - (255 - b) = b := by omega
      rw [e1, e2, e3]
  | case2 l h =>
      match l, h with
      | [], _ => rfl
      | [r], _ => rfl
      | [r, g], _ => rfl
      | [r, g, b], _ => rfl
      | r :: g :: b :: a :: rest, h => exact absurd rfl (h r g b a rest)

/-- Witness for `invert_involutive` at a concrete raster. -/
theorem invert_involutive_witness :
    (∀ v ∈ [10, 200, 0, 7, 255, 1, 2, 9], v ≤ 255) ∧
      invertData (invertData [10, 200, 0, 7, 255, 1, 2, 9]) = [10, 200, 0, 7, 255, 1, 2, 9] :=
  ⟨by decide, invert_involutive [10, 200, 0, 7, 255, 1, 2, 9] (by decide)⟩

/-! ### Indexing a concatenation of fixed-size chunks -/

/-- Folding chunks of a fixed length `k` over a list yields a list of length
`l.length * k`. -/
lemma chunks_length (F : ℕ → List ℕ) (k : ℕ) (hk : ∀ i, (F i).length = k) :
    ∀ l : List ℕ, (l.foldr (fun i acc => F i ++ acc) []).length = l.length * k := by
  intro l
  induction l with
  | nil => simp
  | cons a l ih =>
      simp only [List.foldr_cons, List.length_append, ih, List.length_cons, hk]
      ring

/-- Element `q * k + r` of a concatenation of chunks of fixed length `k` is
element `r` of the `q`-th chunk. -/
lemma chunks_get (F : ℕ → List ℕ) (k : ℕ) (hk : ∀ i, (F i).length = k) :
    ∀ (l : List ℕ) (q r i : ℕ), l.get? q = some i → r < k →
      (l.foldr (fun i acc => F i ++ acc) []).get? (q * k + r) = (F i).get? r := by
  intro l
  induction l with
  | nil => intro q r i h; simp at h
  | cons a l ih =>
      intro q r i h hr
      match q with
      | 0 =>
          simp only [List.get?] at h
          cases h
          simp only [List.foldr_cons, Nat.zero_mul, Nat.zero_add]
          exact List.get?_append (by rw [hk]; exact hr)
      | q + 1 =>
          simp only [List.get?] at h
          have hlen : (F a).length ≤ (q + 1) * k + r := by
            rw [hk, Nat.succ_mul]; omega
          simp only [List.foldr_cons]
          rw [List.get?_append_right hlen, hk]
          have : (q + 1) * k + r - k = q * k + r := by rw [Nat.succ_mul]; omega
          rw [this]
          exact ih q r i h hr

/-- **C9**: `setFromGLPixels` flips rows: in the top-left-origin output, the
pixel at `(x, y)` has R = G = B equal to the red channel of input pixel
`(x, h - 1 - y)` (input rows are bottom-to-top) and alpha `255`. -/
theorem setFromGLPixels_flips_rows (pixels : ℕ → ℕ) (w h x y : ℕ)
    (hx : x < w) (hy : y < h) :
    (setFromGLPixels pixels w h).get? ((y * w + x) * 4) =
        some (pixels (((h - 1 - y) * w + x) * 4)) ∧
    (setFromGLPixels pixels w h).get? ((y * w + x) * 4 + 1) =
        some (pixels (((h - 1 - y) * w + x) * 4)) ∧
    (setFromGLPixels pixels w h).get? ((y * w + x) * 4 + 2) =
        some (pixels (((h - 1 - y) * w + x) * 4)) ∧
    (setFromGLPixels pixels w h).get? ((y * w + x) * 4 + 3) = some 255 := by
  have hrow : ∀ yy : ℕ,
      ((List.range w).foldr (fun xx racc =>
          pixels (((h - 1 - yy) * w + xx) * 4) ::
          pixels (((h - 1 - yy) * w + xx) * 4) ::
          pixels (((h - 1 - yy) * w + xx) * 4) :: 255 :: racc) []) =
      (List.range w).foldr (fun xx acc =>
          [pixels (((h - 1 - yy) * w + xx) * 4),
           pixels (((h - 1 - yy) * w + xx) * 4),
           pixels (((h - 1 - yy) * w + xx) * 4), 255] ++ acc) [] := by
    intro yy
    simp [List.cons_append]
  have hsplit : setFromGLPixels pixels w h =
      (List.range h).foldr (fun yy acc =>
        ((List.range w).foldr (fun xx acc =>
          [pixels (((h - 1 - yy) * w + xx) * 4),
           pixels (((h - 1 - yy) * w + xx) * 4),
           pixels (((h - 1 - yy) * w + xx) * 4), 255] ++ acc) []) ++ acc) [] := by
    unfold setFromGLPixels
    congr 1
  have hrowlen : ∀ yy : ℕ,
      ((List.range w).foldr (fun xx acc =>
        [pixels (((h - 1 - yy) * w + xx) * 4),
         pixels (((h - 1 - yy) * w + xx) * 4),
         pixels (((h - 1 - yy) * w + xx) * 4), 255] ++ acc) []).length = 4 * w := by
    intro yy
    rw [chunks_length (fun xx =>
        [pixels (((h - 1 - yy) * w + xx) * 4),
         pixels (((h - 1 - yy) * w + xx) * 4),
         pixels (((h - 1 - yy) * w + xx) * 4), 255]) 4 (fun _ => rfl), List.length_range]
    ring
  have houter : ∀ c : ℕ, c < 4 * w →
      (setFromGLPixels pixels w h).get? (y * (4 * w) + c) =
        ((List.range w).foldr (fun xx acc =>
          [pixels (((h - 1 - y) * w + xx) * 4),
           pixels (((h - 1 - y) * w + xx) * 4),
           pixels (((h - 1 - y) * w + xx) * 4), 255] ++ acc) []).get? c := by
    intro c hc
    rw [hsplit]
    exact chunks_get _ (4 * w) hrowlen (List.range h) y c y (List.get?_range hy) hc
  have hinner : ∀ r : ℕ, r < 4 →
      ((List.range w).foldr (fun xx acc =>
        [pixels (((h - 1 - y) * w + xx) * 4),
         pixels (((h - 1 - y) * w + xx) * 4),
         pixels (((h - 1 - y) * w + xx) * 4), 255] ++ acc) []).get? (x * 4 + r) =
      ([pixels (((h - 1 - y) * w + x) * 4),
        pixels (((h - 1 - y) * w + x) * 4),
        pixels (((h - 1 - y) * w + x) * 4), 255] : List ℕ).get? r := by
    intro r hr
    exact chunks_get (fun xx =>
        [pixels (((h - 1 - y) * w + xx) * 4),
         pixels (((h - 1 - y) * w + xx) * 4),
         pixels (((h - 1 - y) * w + xx) * 4), 255]) 4 (fun _ => rfl)
      (List.range w) x r x (List.get?_range hx) hr
  have hbound : ∀ r : ℕ, r < 4 → x * 4 + r < 4 * w := by
    intro r hr
    calc x * 4 + r < x * 4 + 4 := by omega
    _ = (x + 1) * 4 := by ring
    _ ≤ w * 4 := Nat.mul_le_mul_right 4 hx
    _ = 4 * w := by ring
  refine ⟨?_, ?_, ?_, ?_⟩
  · rw [show (y * w + x) * 4 = y * (4 * w) + (x * 4 + 0) from by ring,
       houter (x * 4 + 0) (hbound 0 (by omega)), hinner 0 (by omega)]
    rfl
  · rw [show (y * w + x) * 4 + 1 = y * (4 * w) + (x * 4 + 1) from by ring,
       houter (x * 4 + 1) (hbound 1 (by omega)), hinner 1 (by omega)]
    rfl
  · rw [show (y * w + x) * 4 + 2 = y * (4 * w) + (x * 4 + 2) from by ring,
       houter (x * 4 + 2) (hbound 2 (by omega)), hinner 2 (by omega)]
    rfl
  · rw [show (y * w + x) * 4 + 3 = y * (4 * w) + (x * 4 + 3) from by ring,
       houter (x * 4 + 3) (hbound 3 (by omega)), hinner 3 (by omega)]
    rfl

/-- Witness for `setFromGLPixels_flips_rows` on a concrete 2×2 readback. -/
theorem setFromGLPixels_flips_rows_witness :
    0 < 2 ∧ 0 < 2 ∧
      ((setFromGLPixels (fun i => i) 2 2).get? ((0 * 2 + 0) * 4) =
          some (((2 - 1 - 0) * 2 + 0) * 4) ∧
        (setFromGLPixels (fun i => i) 2 2).get? ((0 * 2 + 0) * 4 + 1) =
          some (((2 - 1 - 0) * 2 + 0) * 4) ∧
        (setFromGLPixels (fun i => i) 2 2).get? ((0 * 2 + 0) * 4 + 2) =
          some (((2 - 1 - 0) * 2 + 0) * 4) ∧
        (setFromGLPixels (fun i => i) 2 2).get? ((0 * 2 + 0) * 4 + 3) = some 255) :=
  ⟨by decide, by decide,
    setFromGLPixels_flips_rows (fun i => i) 2 2 0 0 (by decide) (by decide)⟩

/-! ### Polygon rasterization -/

/-- **C6 (counterexample)**: `setFromPolygons` with an empty polygon list does
*not* leave the Mask Buffer unchanged: on a 1×1 all-255 mask it writes 0 (the
unconditional clear-to-black runs before any loop is examined). -/
theorem setFromPolygons_empty_counterexample :
    setFromPolygonsModel (fun _ _ _ => false) 1 1 (fun _ _ => 255) [] 0 0 = 0 ∧
      (fun _ _ => (255 : ℕ)) 0 0 = 255 := by
  constructor
  · rfl
  · rfl

/-- **C6 (amended)**: for every polygon list whose loops all have fewer than
three vertices (and for the empty list), `setFromPolygons` throws no error —
it is a total function — skips every loop, and produces the all-black raster
on the canvas area: the mask is cleared to 0, not left unchanged. -/
theorem setFromPolygons_degenerate (fillsPixel : List (ℚ × ℚ) → ℕ → ℕ → Bool)
    (w h : ℕ) (mask : ℕ → ℕ → ℕ) (polys : List (List (ℚ × ℚ)))
    (hdeg : ∀ poly ∈ polys, poly.length < 3) :
    setFromPolygonsModel fillsPixel w h mask polys =
      fun x y => if x < w ∧ y < h then 0 else mask x y := by
  funext x y
  unfold setFromPolygonsModel
  have hany : polys.any (fun poly =>
      if poly.length < 3 then false
      else fillsPixel (poly.map (fun v => (v.1 * (w : ℚ), v.2 * (h : ℚ)))) x y) = false := by
    rw [List.any_eq_false]
    intro poly hpoly
    simp [hdeg poly hpoly]
  rw [hany]
  simp

/-- Witness for `setFromPolygons_degenerate`: the empty polygon list on a 1×1
all-white mask. -/
theorem setFromPolygons_degenerate_witness :
    (∀ poly ∈ ([] : List (List (ℚ × ℚ))), poly.length < 3) ∧
      setFromPolygonsModel (fun _ _ _ => false) 1 1 (fun _ _ => 255) [] =
        fun x y => if x < 1 ∧ y < 1 then 0 else 255 :=
  ⟨by simp, setFromPolygons_degenerate (fun _ _ _ => false) 1 1 (fun _ _ => 255) [] (by simp)⟩

/-! ### Stroke interpolation -/

/-- `maxConsecGapSq` is bounded by `B` whenever every consecutive squared gap
along the chain is. -/
lemma maxConsecGapSq_le_of_chain (B : ℚ) (hB : 0 ≤ B) :
    ∀ (l : List (ℚ × ℚ)) (p : ℚ × ℚ),
      List.Chain (fun a b => (b.1 - a.1) ^ 2 + (b.2 - a.2) ^ 2 ≤ B) p l →
      maxConsecGapSq p l ≤ B := by
  intro l
  induction l with
  | nil => intro p _; simpa [maxConsecGapSq] using hB
  | cons q rest ih =>
      intro p hc
      rcases hc with _ | ⟨hpq, hrest⟩
      simp only [maxConsecGapSq, max_le_iff]
      exact ⟨hpq, ih q hrest⟩

/-- The interpolated stamp points plus the final stamp form a chain whose
consecutive squared gaps are all at most `d ^ 2 + e ^ 2`, where `(d, e)` is
the per-step displacement. -/
lemma stamps_chain (c cy d e B : ℚ) (hd : d ^ 2 + e ^ 2 ≤ B) :
    ∀ (n m : ℕ),
      List.Chain (fun a b => (b.1 - a.1) ^ 2 + (b.2 - a.2) ^ 2 ≤ B)
        (affinePt c cy d e m)
        (((List.range n).map (fun i => affinePt c cy d e (m + i + 1))) ++
          [affinePt c cy d e (m + n)]) := by
  intro n
  induction n with
  | zero =>
      intro m
      refine List.Chain.cons ?_ List.Chain.nil
      have heq : ((affinePt c cy d e (m + 0)).1 - (affinePt c cy d e m).1) ^ 2 +
          ((affinePt c cy d e (m + 0)).2 - (affinePt c cy d e m).2) ^ 2 = 0 := by
        simp only [affinePt]
        push_cast
        ring
      rw [heq]
      have h0 : (0 : ℚ) ≤ d ^ 2 + e ^ 2 := by positivity
      linarith
  | succ n ih =>
      intro m
      rw [List.range_succ_eq_map]
      refine List.Chain.cons ?_ ?_
      · have heq : ((affinePt c cy d e (m + 0 + 1)).1 - (affinePt c cy d e m).1) ^ 2 +
            ((affinePt c cy d e (m + 0 + 1)).2 - (affinePt c cy d e m).2) ^ 2 =
            d ^ 2 + e ^ 2 := by
          simp only [affinePt]
          push_cast
          ring
        rw [heq]
        exact hd
      · have hmap : (List.map Nat.succ (List.range n)).map
            (fun i => affinePt c cy d e (m + i + 1)) =
            (List.range n).map (fun i => affinePt c cy d e ((m + 1) + i + 1)) := by
          rw [List.map_map]
          refine List.map_congr_left ?_
          intro i _
          simp only [Function.comp_apply, Nat.succ_eq_add_one]
          congr 1
          omega
        have h01 : m + 0 + 1 = m + 1 := by omega
        have h1n : m + (n + 1) = m + 1 + n := by omega
        simp only [hmap, h01, h1n]
        exact ih (m + 1)

/-- **C7 (counterexample)**: with brush radius 2 the step is clamped to
`max 1 (2/4) = 1` pixel, so a move of length `3/2` (which exceeds the quarter
radius `1/2`) is interpolated with stamp gaps of `3/4 > 1/2`: the
quarter-radius gap bound fails for brush radii below 4. -/
theorem strokeStamps_gap_counterexample :
    (0 : ℚ) ≤ 3 / 2 ∧
    ((3 : ℚ) / 2) ^ 2 = ((3 / 2 : ℚ) - 0) ^ 2 + ((0 : ℚ) - 0) ^ 2 ∧
    (3 / 2 : ℚ) > 2 / 4 ∧
    maxConsecGapSq (0, 0) (strokeStamps 0 0 (3 / 2) 0 (3 / 2) 2) > ((2 : ℚ) / 4) ^ 2 := by
  refine ⟨by norm_num, by norm_num, by norm_num, ?_⟩
  have hmax : max (1 : ℚ) (2 / 4) = 1 := by
    rw [max_eq_left]
    norm_num
  have hceil2 : (⌈(3 / 2 : ℚ)⌉ : ℤ) = 2 := by
    rw [Int.ceil_eq_iff]
    norm_num
  have hceil : (⌈(3 / 2 : ℚ) / 1⌉ : ℤ).toNat = 2 := by
    rw [div_one, hceil2]
    rfl
  have hlist : strokeStamps 0 0 (3 / 2) 0 (3 / 2) 2 =
      [(3 / 4, 0), (3 / 2, 0), (3 / 2, 0)] := by
    simp only [strokeStamps, hmax, hceil]
    norm_num [List.range_succ]
  rw [hlist]
  simp only [maxConsecGapSq]
  rw [show ((2 : ℚ) / 4) ^ 2 = 1 / 4 by norm_num]
  have h1 : ((3 / 4 : ℚ) - 0) ^ 2 + ((0 : ℚ) - 0) ^ 2 = 9 / 16 := by norm_num
  rw [h1]
  have : (1 / 4 : ℚ) < 9 / 16 := by norm_num
  exact lt_max_of_lt_left this

/-- **C7 (amended)**: the step is `max 1 (brushRadius / 4)`, not
`brushRadius / 4`.  Whenever the pointer moved farther than this step, the
handler stamps `⌈dist / step⌉` interpolated points, and no two consecutive
stamp centers (starting from the previous position) are farther apart than the
step; the step coincides with the quarter radius exactly when the radius is at
least 4. -/
theorem strokeStamps_gap_le (lastX lastY x y dist brushSize : ℚ)
    (hd0 : 0 ≤ dist)
    (hdist : dist ^ 2 = (x - lastX) ^ 2 + (y - lastY) ^ 2)
    (hgt : dist > max 1 (brushSize / 4)) :
    (strokeStamps lastX lastY x y dist brushSize).length =
      (⌈dist / max 1 (brushSize / 4)⌉.toNat + 1) ∧
    maxConsecGapSq (lastX, lastY) (strokeStamps lastX lastY x y dist brushSize) ≤
      (max 1 (brushSize / 4)) ^ 2 ∧
    (4 ≤ brushSize → max 1 (brushSize / 4) = brushSize / 4) := by
  set step : ℚ := max 1 (brushSize / 4) with hstep_def
  have hstep1 : (1 : ℚ) ≤ step := le_max_left _ _
  have hstep0 : (0 : ℚ) < step := by linarith
  have hdistpos : (0 : ℚ) < dist := lt_trans hstep0 hgt
  set n : ℕ := ⌈dist / step⌉.toNat with hn_def
  have hceil_ge : (1 : ℤ) ≤ ⌈dist / step⌉ := by
    have : (1 : ℚ) < dist / step := (one_lt_div hstep0).mpr hgt
    have h := Int.le_ceil (dist / step)
    have : (1 : ℚ) < (⌈dist / step⌉ : ℚ) := lt_of_lt_of_le this h
    exact_mod_cast this.le
  have hn1 : 1 ≤ n := by
    simp only [hn_def]
    omega
  have hncast : (n : ℚ) = (⌈dist / step⌉ : ℚ) := by
    simp only [hn_def]
    exact_mod_cast congrArg Int.cast (Int.toNat_of_nonneg (by omega))
  have hnpos : (0 : ℚ) < n := by
    have : (1 : ℚ) ≤ n := by exact_mod_cast hn1
    linarith
  have hnne : (n : ℚ) ≠ 0 := ne_of_gt hnpos
  have hdist_le : dist ≤ n * step := by
    have h1 : dist / step ≤ (⌈dist / step⌉ : ℚ) := Int.le_ceil _
    rw [← hncast] at h1
    calc dist = dist / step * step := by field_simp
    _ ≤ n * step := by
        exact mul_le_mul_of_nonneg_right h1 hstep0.le
  set dx : ℚ := x - lastX with hdx_def
  set dy : ℚ := y - lastY with hdy_def
  have hgap : (dx / n) ^ 2 + (dy / n) ^ 2 ≤ step ^ 2 := by
    have hsum : (dx / n) ^ 2 + (dy / n) ^ 2 = dist ^ 2 / n ^ 2 := by
      rw [hdist]
      field_simp
    rw [hsum]
    rw [div_le_iff (by positivity)]
    have h2 : dist ^ 2 ≤ (n * step) ^ 2 := by
      have := mul_self_le_mul_self hd0 hdist_le
      simpa [pow_two] using this
    calc dist ^ 2 ≤ (n * step) ^ 2 := h2
    _ = step ^ 2 * (n : ℚ) ^ 2 := by ring
  have hlist : strokeStamps lastX lastY x y dist brushSize =
      (List.range n).map (fun i => affinePt lastX lastY (dx / n) (dy / n) (0 + i + 1)) ++
        [affinePt lastX lastY (dx / n) (dy / n) (0 + n)] := by
    simp only [strokeStamps, ← hstep_def, ← hn_def]
    rw [if_pos hgt]
    congr 1
    · refine List.map_congr_left ?_
      intro i _
      simp only [affinePt]
      have hcast : ((0 + i + 1 : ℕ) : ℚ) = (i : ℚ) + 1 := by push_cast; ring
      rw [hcast]
      simp only [Prod.mk.injEq]
      constructor
      · rw [hdx_def]; ring
      · rw [hdy_def]; ring
    · have hcast : ((0 + n : ℕ) : ℚ) = (n : ℚ) := by push_cast; ring
      simp only [affinePt, hcast]
      have hx : lastX + dx / n * n = x := by
        rw [hdx_def]; field_simp
      have hy : lastY + dy / n * n = y := by
        rw [hdy_def]; field_simp
      rw [hx, hy]
  refine ⟨?_, ?_, ?_⟩
  · rw [hlist]
    simp
  · have hchain := stamps_chain lastX lastY (dx / n) (dy / n) (step ^ 2) hgap n 0
    have hstart : affinePt lastX lastY (dx / n) (dy / n) 0 = (lastX, lastY) := by
      simp [affinePt]
    rw [hstart] at hchain
    rw [hlist]
    exact maxConsecGapSq_le_of_chain (step ^ 2) (by positivity) _ _ hchain
  · intro h4
    have : (1 : ℚ) ≤ brushSize / 4 := by linarith
    simp only [hstep_def]
    exact max_eq_right this

/-- Witness for `strokeStamps_gap_le`: brush radius 4 and a horizontal move of
length 3. -/
theorem strokeStamps_gap_le_witness :
    ((0 : ℚ) ≤ 3 ∧ (3 : ℚ) ^ 2 = ((3 : ℚ) - 0) ^ 2 + ((0 : ℚ) - 0) ^ 2 ∧
        (3 : ℚ) > max 1 (4 / 4)) ∧
      ((strokeStamps 0 0 3 0 3 4).length = (⌈(3 : ℚ) / max 1 (4 / 4)⌉.toNat + 1) ∧
        maxConsecGapSq (0, 0) (strokeStamps 0 0 3 0 3 4) ≤ (max 1 ((4 : ℚ) / 4)) ^ 2 ∧
        ((4 : ℚ) ≤ 4 → max 1 ((4 : ℚ) / 4) = 4 / 4)) :=
  ⟨⟨by norm_num, by norm_num, by norm_num⟩,
    strokeStamps_gap_le 0 0 3 0 3 4 (by norm_num) (by norm_num) (by norm_num)⟩

/-! ### Shader-set failure behaviour -/

/-- **C1 (counterexample)**: a renderer holding compiled program `A` that calls
`setShader` with a source that fails to compile does *not* keep `A` bound: the
old program is deleted and the field nulled before compilation is attempted, so
after the throw the program is `null`, not `A`.  (The diagnostic is carried.) -/
theorem setShader_failure_counterexample :
    (setShader (fun s => s) (fun _ => .error "ERROR: compile failed")
        ⟨some "A", some "A", true, some "A"⟩ "B").1.program ≠ some "A" ∧
    (setShader (fun s => s) (fun _ => .error "ERROR: compile failed")
        ⟨some "A", some "A", true, some "A"⟩ "B").2 = some "ERROR: compile failed" := by
  constructor
  · intro h
    simp only [setShader] at h
    exact Option.noConfusion h
  · rfl

/-- **C1 (amended)**: when compilation of the (sanitized) fragment source
fails, `setShader` throws the compiler diagnostic and leaves the renderer with
`program = null` (the previous program was deleted before compiling) and all
other fields untouched; a subsequent `render()` is then a no-op, so the canvas
keeps showing the last good frame rather than the previous program being
re-bound. -/
theorem setShader_failure_state (sanitize : String → String)
    (compile : String → Except String Unit) (st : RendererState) (S e : String)
    (h : compile (sanitize S) = .error e) :
    setShader sanitize compile st S = ({ st with program := none }, some e) ∧
    render { st with program := none } = { st with program := none } := by
  constructor
  · simp only [setShader, h]
  · rcases st with ⟨prog, code, img, fr⟩
    cases img <;> rfl

/-- Witness for `setShader_failure_state` at a concrete failing compile. -/
theorem setShader_failure_state_witness :
    ((fun _ : String => (.error "diag" : Except String Unit)) ((fun s => s) "B") =
        .error "diag") ∧
      (setShader (fun s => s) (fun _ => .error "diag")
          ⟨some "A", some "A", true, some "A"⟩ "B" =
        (⟨none, some "A", true, some "A"⟩, some "diag") ∧
       render ⟨none, some "A", true, some "A"⟩ = ⟨none, some "A", true, some "A"⟩) :=
  ⟨rfl, setShader_failure_state (fun s => s) (fun _ => .error "diag")
    ⟨some "A", some "A", true, some "A"⟩ "B" "diag" rfl⟩

/-- **C2**: the offscreen mask-render path is *not* transactional on the
failure path.  With valid shader `A` active (program bound, frame showing
`A`), calling `renderMaskShader` with a source `B` that fails to compile does
propagate the diagnostic, but the exception escapes before the restore step:
the renderer is left with `program = null` (`A` is not re-bound), and a
subsequent `render()` is a no-op rather than a redraw with `A`. -/
theorem renderMaskShader_failure_no_restore :
    renderMaskShader (fun s => s)
        (fun s => if s = "B" then .error "diag" else .ok ())
        ⟨some "A", some "A", true, some "A"⟩ "B" =
      (⟨none, some "A", true, some "A"⟩, .error "diag") ∧
    render ⟨none, some "A", true, some "A"⟩ = ⟨none, some "A", true, some "A"⟩ ∧
    renderMaskShader (fun s => s) (fun _ => .ok ())
        ⟨some "A", some "A", true, some "A"⟩ "B" =
      (⟨some "A", some "A", true, some "A"⟩, .ok (some "B")) := by
  refine ⟨?_, rfl, ?_⟩ <;> rfl

/-! ### Flood-fill reachability -/

/-- Enlarging the acceptance predicate enlarges reachability. -/
lemma Reach.mono {ok1 ok2 : ℕ → Prop} (hok : ∀ p, ok1 p → ok2 p)
    {w h seed q : ℕ} (hr : Reach ok1 w h seed q) : Reach ok2 w h seed q := by
  induction hr with
  | seed h => exact .seed (hok _ h)
  | step _ hn hq ih => exact .step ih hn (hok _ hq)

/-- Membership in the neighbour list, spelled out. -/
lemma mem_neighborList {w h pos q : ℕ} :
    q ∈ neighborList w h pos ↔
      (0 < pos % w ∧ q = pos - 1) ∨ (pos % w < w - 1 ∧ q = pos + 1) ∨
      (0 < (pos - pos % w) / w ∧ q = pos - w) ∨
      ((pos - pos % w) / w < h - 1 ∧ q = pos + w) := by
  simp only [neighborList]
  split_ifs <;> simp_all <;> omega

/-- Neighbours of an in-bounds position are in bounds. -/
lemma neighborList_lt {w h pos : ℕ} (hpos : pos < w * h) :
    ∀ q ∈ neighborList w h pos, q < w * h := by
  intro q hq
  have hw : 0 < w := by
    rcases Nat.eq_zero_or_pos w with hw0 | hw0
    · subst hw0; simp at hpos
    · exact hw0
  have hm : pos % w < w := Nat.mod_lt _ hw
  have hdm : w * (pos / w) + pos % w = pos := Nat.div_add_mod pos w
  have hcomm : w * h = h * w := Nat.mul_comm w h
  have hd : pos / w < h := by
    rw [Nat.div_lt_iff_lt_mul hw]
    omega
  have hsub : pos - pos % w = w * (pos / w) := by omega
  have hdiv : (pos - pos % w) / w = pos / w := by
    rw [hsub, Nat.mul_div_cancel_left _ hw]
  rw [mem_neighborList, hdiv] at hq
  rcases hq with ⟨_, rfl⟩ | ⟨hlt, rfl⟩ | ⟨_, rfl⟩ | ⟨hlt, rfl⟩
  · omega
  · have h1 : (pos / w + 1) * w ≤ h * w := Nat.mul_le_mul_right w (by omega)
    have h2 : (pos / w + 1) * w = w * (pos / w) + w := by ring
    have h3 : h * w = w * h := by ring
    omega
  · omega
  · have hlt2 : pos / w + 2 ≤ h := by
      rcases Nat.eq_zero_or_pos h with h0 | hposh
      · subst h0; simp at hd
      · omega
    have h1 : (pos / w + 2) * w ≤ h * w := Nat.mul_le_mul_right w hlt2
    have h2 : (pos / w + 2) * w = w * (pos / w) + w + w := by ring
    have h3 : h * w = w * h := by ring
    omega

/-- Everything `pushNeighbors` does, in one statement: `selected` untouched,
`visited` grows by exactly the newly queued positions, old queue entries
survive, and the pushed count balances the visited count. -/
lemma pushNeighbors_spec (ns : List ℕ) : ∀ st : FloodState,
    (pushNeighbors ns st).selected = st.selected ∧
    st.visited ⊆ (pushNeighbors ns st).visited ∧
    (∀ n ∈ ns, n ∈ (pushNeighbors ns st).visited) ∧
    (∀ p ∈ (pushNeighbors ns st).queue, p ∈ st.queue ∨ p ∈ ns) ∧
    (∀ p ∈ st.queue, p ∈ (pushNeighbors ns st).queue) ∧
    (∀ p ∈ (pushNeighbors ns st).visited, p ∈ st.visited ∨ p ∈ ns) ∧
    (∀ p ∈ (pushNeighbors ns st).visited, p ∈ st.visited ∨ p ∈ (pushNeighbors ns st).queue) ∧
    (pushNeighbors ns st).visited.card + st.queue.length =
      st.visited.card + (pushNeighbors ns st).queue.length := by
  induction ns with
  | nil =>
      intro st
      exact ⟨rfl, subset_rfl, by simp, fun p hp => Or.inl hp, fun p hp => hp,
        fun p hp => Or.inl hp, fun p hp => Or.inl hp, rfl⟩
  | cons n ns ih =>
      intro st
      by_cases hn : n ∈ st.visited
      · have hstep : pushNeighbors (n :: ns) st = pushNeighbors ns st := by
          simp [pushNeighbors, hn]
        obtain ⟨h1, h2, h3, h4, h5, h6, h7, h8⟩ := ih st
        rw [hstep]
        refine ⟨h1, h2, ?_, ?_, h5, ?_, h7, h8⟩
        · intro x hx
          rcases List.mem_cons.mp hx with rfl | hx
          · exact h2 hn
          · exact h3 x hx
        · intro p hp
          rcases h4 p hp with hp | hp
          · exact Or.inl hp
          · exact Or.inr (List.mem_cons_of_mem _ hp)
        · intro p hp
          rcases h6 p hp with hp | hp
          · exact Or.inl hp
          · exact Or.inr (List.mem_cons_of_mem _ hp)
      · set st1 : FloodState :=
          { st with visited := insert n st.visited, queue := n :: st.queue } with hst1
        have hstep : pushNeighbors (n :: ns) st = pushNeighbors ns st1 := by
          simp [pushNeighbors, hn, hst1]
        obtain ⟨h1, h2, h3, h4, h5, h6, h7, h8⟩ := ih st1
        rw [hstep]
        have hsub1 : st.visited ⊆ st1.visited := by
          intro p hp
          exact Finset.mem_insert_of_mem hp
        refine ⟨h1, fun p hp => h2 (hsub1 hp), ?_, ?_, ?_, ?_, ?_, ?_⟩
        · intro x hx
          rcases List.mem_cons.mp hx with rfl | hx
          · exact h2 (Finset.mem_insert_self _ _)
          · exact h3 x hx
        · intro p hp
          rcases h4 p hp with hp | hp
          · rcases List.mem_cons.mp hp with rfl | hp
            · exact Or.inr (List.mem_cons_self _ _)
            · exact Or.inl hp
          · exact Or.inr (List.mem_cons_of_mem _ hp)
        · intro p hp
          exact h5 p (List.mem_cons_of_mem _ hp)
        · intro p hp
          rcases h6 p hp with hp | hp
          · rcases Finset.mem_insert.mp hp with rfl | hp
            · exact Or.inr (List.mem_cons_self _ _)
            · exact Or.inl hp
          · exact Or.inr (List.mem_cons_of_mem _ hp)
        · intro p hp
          rcases h7 p hp with hp | hp
          · rcases Finset.mem_insert.mp hp with rfl | hp
            · exact Or.inr (h5 p (List.mem_cons_self _ _))
            · exact Or.inl hp
          · exact Or.inr hp
        · have hc : st1.visited.card = st.visited.card + 1 :=
            Finset.card_insert_of_not_mem hn
          have hl : st1.queue.length = st.queue.length + 1 := rfl
          omega

/-- One loop iteration preserves the invariant and strictly decreases the
measure `w·h − |visited| + |queue|`. -/
lemma floodStep_spec (src : ℕ → ℕ) (w h : ℕ) (sR sG sB tol : ℤ) (seed : ℕ)
    (st : FloodState)
    (hInv : FloodInv (fun pos => distSqTo src sR sG sB pos ≤ tol) w h seed st)
    (pos : ℕ) (rest : List ℕ) (hq : st.queue = pos :: rest) :
    FloodInv (fun pos => distSqTo src sR sG sB pos ≤ tol) w h seed
        (floodStep src w h sR sG sB tol st) ∧
      w * h - (floodStep src w h sR sG sB tol st).visited.card +
          (floodStep src w h sR sG sB tol st).queue.length + 1 ≤
        w * h - st.visited.card + st.queue.length := by
  have hposq : pos ∈ st.queue := by rw [hq]; exact List.mem_cons_self _ _
  have hpos_vis : pos ∈ st.visited := hInv.queue_vis pos hposq
  have hpos_lt : pos < w * h := hInv.vis_sub pos hpos_vis
  have hReach : (distSqTo src sR sG sB pos ≤ tol) →
      Reach (fun p => distSqTo src sR sG sB p ≤ tol) w h seed pos := by
    intro hokp
    rcases hInv.queue_src pos hposq with rfl | ⟨r, hr, hn⟩
    · exact .seed hokp
    · exact .step (hInv.sound_sel r hr) hn hokp
  have hstep : floodStep src w h sR sG sB tol st =
      if distSqTo src sR sG sB pos ≤ tol then
        pushNeighbors (neighborList w h pos) ⟨st.visited, insert pos st.selected, rest⟩
      else ⟨st.visited, st.selected, rest⟩ := by
    unfold floodStep
    rw [hq]
  have hcardB : st.visited.card ≤ w * h := by
    have hsub : st.visited ⊆ Finset.range (w * h) := fun p hp =>
      Finset.mem_range.mpr (hInv.vis_sub p hp)
    simpa using Finset.card_le_card hsub
  have hlen : st.queue.length = rest.length + 1 := by rw [hq]; rfl
  by_cases hok : distSqTo src sR sG sB pos ≤ tol
  · rw [hstep, if_pos hok]
    set st1 : FloodState := ⟨st.visited, insert pos st.selected, rest⟩ with hst1
    obtain ⟨s1, s2, s3, s4, s5, s6, s7, s8⟩ :=
      pushNeighbors_spec (neighborList w h pos) st1
    have hvis_sub : ∀ p ∈ (pushNeighbors (neighborList w h pos) st1).visited,
        p < w * h := by
      intro p hp
      rcases s6 p hp with hp | hp
      · exact hInv.vis_sub p hp
      · exact neighborList_lt hpos_lt p hp
    refine ⟨⟨hvis_sub, ?_, ?_, ?_, ?_, ?_, ?_, ?_⟩, ?_⟩
    · intro p hp
      rcases s4 p hp with hp | hp
      · exact s2 (hInv.queue_vis p (by rw [hq]; exact List.mem_cons_of_mem _ hp))
      · exact s3 p hp
    · exact s2 hInv.seed_vis
    · intro p hp
      rw [s1] at hp
      rcases Finset.mem_insert.mp hp with rfl | hp
      · exact hReach hok
      · exact hInv.sound_sel p hp
    · intro p hp
      rcases s4 p hp with hp | hp
      · rcases hInv.queue_src p (by rw [hq]; exact List.mem_cons_of_mem _ hp) with
          rfl | ⟨r, hr, hn⟩
        · exact Or.inl rfl
        · exact Or.inr ⟨r, by rw [s1]; exact Finset.mem_insert_of_mem hr, hn⟩
      · exact Or.inr ⟨pos, by rw [s1]; exact Finset.mem_insert_self _ _, hp⟩
    · intro p hp
      rcases s7 p hp with hp | hp
      · rcases hInv.vis_q_sel p hp with hpq | hps
        · rw [hq] at hpq
          rcases List.mem_cons.mp hpq with rfl | hpq
          · exact Or.inr fun _ => by rw [s1]; exact Finset.mem_insert_self _ _
          · exact Or.inl (s5 p hpq)
        · exact Or.inr fun hokp => by
            rw [s1]; exact Finset.mem_insert_of_mem (hps hokp)
      · exact Or.inl hp
    · intro p hp
      rw [s1] at hp
      rcases Finset.mem_insert.mp hp with rfl | hp
      · exact hok
      · exact hInv.sel_ok p hp
    · intro p hp q hqn
      rw [s1] at hp
      rcases Finset.mem_insert.mp hp with rfl | hp
      · exact s3 q hqn
      · exact s2 (hInv.sel_nbrs p hp q hqn)
    · have hcardmono : st.visited.card ≤
          (pushNeighbors (neighborList w h pos) st1).visited.card :=
        Finset.card_le_card s2
      have hcardA : (pushNeighbors (neighborList w h pos) st1).visited.card ≤ w * h := by
        have hsub : (pushNeighbors (neighborList w h pos) st1).visited ⊆
            Finset.range (w * h) := fun p hp => Finset.mem_range.mpr (hvis_sub p hp)
        simpa using Finset.card_le_card hsub
      have hbal : (pushNeighbors (neighborList w h pos) st1).visited.card +
          rest.length = st.visited.card +
            (pushNeighbors (neighborList w h pos) st1).queue.length := s8
      omega
  · rw [hstep, if_neg hok]
    refine ⟨⟨hInv.vis_sub, ?_, hInv.seed_vis, hInv.sound_sel, ?_, ?_,
      hInv.sel_ok, hInv.sel_nbrs⟩, ?_⟩
    · intro p hp
      exact hInv.queue_vis p (by rw [hq]; exact List.mem_cons_of_mem _ hp)
    · intro p hp
      exact hInv.queue_src p (by rw [hq]; exact List.mem_cons_of_mem _ hp)
    · intro p hp
      rcases hInv.vis_q_sel p hp with hpq | hps
      · rw [hq] at hpq
        rcases List.mem_cons.mp hpq with rfl | hpq
        · exact Or.inr fun hokp => absurd hokp hok
        · exact Or.inl hpq
      · exact Or.inr hps
    · simp only [List.length_cons]
      omega

/-- With fuel at least the measure `w·h − |visited| + |queue|`, the loop
maintains the invariant and drains the queue completely. -/
lemma floodLoop_run (src : ℕ → ℕ) (w h : ℕ) (sR sG sB tol : ℤ) (seed : ℕ) :
    ∀ (fuel : ℕ) (st : FloodState),
      FloodInv (fun pos => distSqTo src sR sG sB pos ≤ tol) w h seed st →
      w * h - st.visited.card + st.queue.length ≤ fuel →
      FloodInv (fun pos => distSqTo src sR sG sB pos ≤ tol) w h seed
          (floodLoop src w h sR sG sB tol fuel st) ∧
        (floodLoop src w h sR sG sB tol fuel st).queue = [] := by
  intro fuel
  induction fuel with
  | zero =>
      intro st hInv hfuel
      have hempty : st.queue = [] := by
        have : st.queue.length = 0 := by omega
        exact List.length_eq_zero.mp this
      exact ⟨hInv, hempty⟩
  | succ fuel ih =>
      intro st hInv hfuel
      cases hq : st.queue with
      | nil =>
          have hEmpty : st.queue.isEmpty = true := by rw [hq]; rfl
          simp only [floodLoop, hEmpty, if_true]
          exact ⟨hInv, hq⟩
      | cons pos rest =>
          have hEmpty : st.queue.isEmpty = false := by rw [hq]; rfl
          simp only [floodLoop, hEmpty, Bool.false_eq_true, if_false]
          obtain ⟨hInv', hdec⟩ := floodStep_spec src w h sR sG sB tol seed st hInv pos rest hq
          exact ih (floodStep src w h sR sG sB tol st) hInv' (by omega)

/-- The loop is inert on an empty queue. -/
lemma floodLoop_nil (src : ℕ → ℕ) (w h : ℕ) (sR sG sB tol : ℤ) :
    ∀ (fuel : ℕ) (st : FloodState), st.queue = [] →
      floodLoop src w h sR sG sB tol fuel st = st := by
  intro fuel st hq
  cases fuel with
  | zero => rfl
  | succ fuel =>
      have hEmpty : st.queue.isEmpty = true := by rw [hq]; rfl
      simp only [floodLoop, hEmpty, if_true]

/-- Splitting the fuel of the loop. -/
lemma floodLoop_add (src : ℕ → ℕ) (w h : ℕ) (sR sG sB tol : ℤ) :
    ∀ (m n : ℕ) (st : FloodState),
      floodLoop src w h sR sG sB tol (m + n) st =
        floodLoop src w h sR sG sB tol n (floodLoop src w h sR sG sB tol m st) := by
  intro m
  induction m with
  | zero => intro n st; rw [Nat.zero_add]; rfl
  | succ m ih =>
      intro n st
      have harith : m + 1 + n = (m + n) + 1 := by omega
      rw [harith]
      cases hq : st.queue with
      | nil =>
          have hEmpty : st.queue.isEmpty = true := by rw [hq]; rfl
          simp only [floodLoop, hEmpty, if_true]
          rw [floodLoop_nil src w h sR sG sB tol n st hq]
      | cons pos rest =>
          have hEmpty : st.queue.isEmpty = false := by rw [hq]; rfl
          simp only [floodLoop, hEmpty, Bool.false_eq_true, if_false]
          exact ih n (floodStep src w h sR sG sB tol st)

/-- The linear index of an in-bounds seed pixel is in bounds. -/
lemma seed_lt {w h ix iy : ℕ} (hix : ix < w) (hiy : iy < h) : ix + iy * w < w * h := by
  have h1 : (iy + 1) * w ≤ h * w := Nat.mul_le_mul_right w (by omega)
  have h2 : (iy + 1) * w = iy * w + w := by ring
  have h3 : h * w = w * h := by ring
  omega

/-- The initial flood state satisfies the invariant. -/
lemma floodInit_inv (ok : ℕ → Prop) (w h seed : ℕ) (hseed : seed < w * h) :
    FloodInv ok w h seed (floodInit seed) := by
  refine ⟨?_, ?_, ?_, ?_, ?_, ?_, ?_, ?_⟩
  · intro p hp
    rw [floodInit, Finset.mem_singleton] at hp
    subst hp
    exact hseed
  · intro p hp
    rcases List.mem_singleton.mp hp with rfl
    exact Finset.mem_singleton_self _
  · exact Finset.mem_singleton_self _
  · intro p hp
    simp [floodInit] at hp
  · intro p hp
    rcases List.mem_singleton.mp hp with rfl
    exact Or.inl rfl
  · intro p hp
    rw [floodInit, Finset.mem_singleton] at hp
    subst hp
    exact Or.inl (List.mem_singleton_self _)
  · intro p hp
    simp [floodInit] at hp
  · intro p hp
    simp [floodInit] at hp

/-- The final state of `_quickSelect`'s flood fill satisfies the invariant and
has an empty work stack: the fuel `w · h` is sufficient. -/
lemma quickSelectFloodRun_spec (src : ℕ → ℕ) (w h ix iy tolerance : ℕ)
    (hix : ix < w) (hiy : iy < h) :
    FloodInv (fun pos => distSqTo src (src ((iy * w + ix) * 4))
        (src ((iy * w + ix) * 4 + 1)) (src ((iy * w + ix) * 4 + 2)) pos ≤
          (tolerance : ℤ) * (tolerance : ℤ) * 3)
        w h (ix + iy * w) (quickSelectFloodRun src w h ix iy tolerance) ∧
      (quickSelectFloodRun src w h ix iy tolerance).queue = [] := by
  have hseed : ix + iy * w < w * h := seed_lt hix hiy
  have hμ : w * h - (floodInit (ix + iy * w)).visited.card +
      (floodInit (ix + iy * w)).queue.length ≤ w * h := by
    have hc : (floodInit (ix + iy * w)).visited.card = 1 := Finset.card_singleton _
    have hl : (floodInit (ix + iy * w)).queue.length = 1 := rfl
    omega
  exact floodLoop_run src w h (src ((iy * w + ix) * 4)) (src ((iy * w + ix) * 4 + 1))
    (src ((iy * w + ix) * 4 + 2)) ((tolerance : ℤ) * (tolerance : ℤ) * 3)
    (ix + iy * w) (w * h) (floodInit (ix + iy * w))
    (floodInit_inv _ w h _ hseed) hμ

/-- The flood-fill output is exactly declarative reachability: a pixel is
selected iff a 4-connected path of pixels within tolerance of the seed colour
joins it to the seed. -/
lemma quickSelectFlood_iff (src : ℕ → ℕ) (w h ix iy tolerance : ℕ)
    (hix : ix < w) (hiy : iy < h) (q : ℕ) :
    q ∈ quickSelectFlood src w h ix iy tolerance ↔
      Reach (fun pos => distSqTo src (src ((iy * w + ix) * 4))
          (src ((iy * w + ix) * 4 + 1)) (src ((iy * w + ix) * 4 + 2)) pos ≤
            (tolerance : ℤ) * (tolerance : ℤ) * 3)
        w h (ix + iy * w) q := by
  obtain ⟨hInv, hqe⟩ := quickSelectFloodRun_spec src w h ix iy tolerance hix hiy
  constructor
  · exact fun hq => hInv.sound_sel q hq
  · intro hr
    induction hr with
    | seed hok =>
        rcases hInv.vis_q_sel _ hInv.seed_vis with hq | hsel
        · rw [hqe] at hq
          simp at hq
        · exact hsel hok
    | step hp hn hok ih =>
        have hvis := hInv.sel_nbrs _ ih _ hn
        rcases hInv.vis_q_sel _ hvis with hq | hsel
        · rw [hqe] at hq
          simp at hq
        · exact hsel hok

/-- **C3**: quick-select flood fill is monotone in the tolerance: for a fixed
source image and in-bounds seed, a smaller tolerance selects a subset of what
a larger tolerance selects (before dilation). -/
theorem quickSelectFlood_monotone (src : ℕ → ℕ) (w h ix iy t1 t2 : ℕ)
    (hix : ix < w) (hiy : iy < h) (ht : t1 ≤ t2) :
    quickSelectFlood src w h ix iy t1 ⊆ quickSelectFlood src w h ix iy t2 := by
  intro q hq
  rw [quickSelectFlood_iff src w h ix iy t1 hix hiy q] at hq
  rw [quickSelectFlood_iff src w h ix iy t2 hix hiy q]
  refine Reach.mono ?_ hq
  intro p hp
  have h1 : (t1 : ℤ) ≤ (t2 : ℤ) := by exact_mod_cast ht
  have h2 : (0 : ℤ) ≤ (t1 : ℤ) := by positivity
  have htol : (t1 : ℤ) * (t1 : ℤ) * 3 ≤ (t2 : ℤ) * (t2 : ℤ) * 3 := by nlinarith
  exact le_trans hp htol

/-- Witness for `quickSelectFlood_monotone` on a 1×1 image. -/
theorem quickSelectFlood_monotone_witness :
    0 < 1 ∧ 0 < 1 ∧ 1 ≤ 2 ∧
      quickSelectFlood (fun _ => 0) 1 1 0 0 1 ⊆ quickSelectFlood (fun _ => 0) 1 1 0 0 2 :=
  ⟨Nat.one_pos, Nat.one_pos, by omega,
    quickSelectFlood_monotone (fun _ => 0) 1 1 0 0 1 2 Nat.one_pos Nat.one_pos (by omega)⟩

/-- **C4**: the seed pixel always belongs to its own flood-fill selection: its
squared distance to itself is 0, which is at most the threshold `3·τ²` for
every tolerance. -/
theorem quickSelectFlood_seed_mem (src : ℕ → ℕ) (w h ix iy tolerance : ℕ)
    (hix : ix < w) (hiy : iy < h) :
    ix + iy * w ∈ quickSelectFlood src w h ix iy tolerance := by
  rw [quickSelectFlood_iff src w h ix iy tolerance hix hiy]
  refine Reach.seed ?_
  unfold distSqTo
  rw [show (ix + iy * w) * 4 = (iy * w + ix) * 4 from by ring]
  simp only [sub_self, mul_zero, zero_mul, add_zero, zero_add]
  positivity

/-- Witness for `quickSelectFlood_seed_mem` on a 2×2 image. -/
theorem quickSelectFlood_seed_mem_witness :
    1 < 2 ∧ 0 < 2 ∧ 1 + 0 * 2 ∈ quickSelectFlood (fun i => i) 2 2 1 0 3 :=
  ⟨by omega, by omega,
    quickSelectFlood_seed_mem (fun i => i) 2 2 1 0 3 (by omega) (by omega)⟩

/-- **C10**: the flood-fill traversal terminates on every input: each position
is marked visited before being pushed and pushed only when unvisited, so the
measure `w·h − |visited| + |queue|` drops every iteration; `w · h` iterations
of fuel drain the queue, and any additional fuel leaves the result unchanged
(`_quickSelect` is a total function of its inputs). -/
theorem quickSelectFlood_terminates (src : ℕ → ℕ) (w h ix iy tolerance : ℕ)
    (hix : ix < w) (hiy : iy < h) :
    (quickSelectFloodRun src w h ix iy tolerance).queue = [] ∧
    ∀ extra : ℕ,
      floodLoop src w h (src ((iy * w + ix) * 4)) (src ((iy * w + ix) * 4 + 1))
          (src ((iy * w + ix) * 4 + 2)) ((tolerance : ℤ) * (tolerance : ℤ) * 3)
          (w * h + extra) (floodInit (ix + iy * w)) =
        quickSelectFloodRun src w h ix iy tolerance := by
  obtain ⟨_, hqe⟩ := quickSelectFloodRun_spec src w h ix iy tolerance hix hiy
  refine ⟨hqe, ?_⟩
  intro extra
  have hrun : floodLoop src w h (src ((iy * w + ix) * 4)) (src ((iy * w + ix) * 4 + 1))
      (src ((iy * w + ix) * 4 + 2)) ((tolerance : ℤ) * (tolerance : ℤ) * 3)
      (w * h) (floodInit (ix + iy * w)) =
      quickSelectFloodRun src w h ix iy tolerance := rfl
  rw [floodLoop_add, hrun]
  exact floodLoop_nil _ _ _ _ _ _ _ extra _ hqe

/-- Witness for `quickSelectFlood_terminates` on a 2×2 image, with 7 units of
extra fuel. -/
theorem quickSelectFlood_terminates_witness :
    0 < 2 ∧ 0 < 2 ∧
      ((quickSelectFloodRun (fun _ => 0) 2 2 0 0 1).queue = [] ∧
        floodLoop (fun _ => 0) 2 2 ((0 : ℕ) : ℤ) ((0 : ℕ) : ℤ) ((0 : ℕ) : ℤ)
            (((1 : ℕ) : ℤ) * ((1 : ℕ) : ℤ) * 3) (2 * 2 + 7) (floodInit (0 + 0 * 2)) =
          quickSelectFloodRun (fun _ => 0) 2 2 0 0 1) :=
  ⟨by omega, by omega,
    (quickSelectFlood_terminates (fun _ => 0) 2 2 0 0 1 (by omega) (by omega)).1,
    (quickSelectFlood_terminates (fun _ => 0) 2 2 0 0 1 (by omega) (by omega)).2 7⟩

/-! ### Growth (dilation) characterization -/

/-- A `foldl` whose step adds a union acts as one big union. -/
lemma foldl_union_acc {f : Finset ℕ → ℕ → Finset ℕ} {S : ℕ → Finset ℕ}
    (hf : ∀ acc i, f acc i = acc ∪ S i) :
    ∀ (l : List ℕ) (acc : Finset ℕ), l.foldl f acc = acc ∪ l.foldl f ∅ := by
  intro l
  induction l with
  | nil => intro acc; simp
  | cons a l ih =>
      intro acc
      rw [List.foldl_cons, List.foldl_cons, ih (f acc a), ih (f ∅ a), hf, hf]
      ext x
      simp [Finset.mem_union]

/-- Membership in a union-accumulating `foldl`. -/
lemma mem_foldl_union {f : Finset ℕ → ℕ → Finset ℕ} {S : ℕ → Finset ℕ}
    (hf : ∀ acc i, f acc i = acc ∪ S i) :
    ∀ (l : List ℕ) (acc : Finset ℕ) (x : ℕ),
      x ∈ l.foldl f acc ↔ x ∈ acc ∨ ∃ i ∈ l, x ∈ S i := by
  intro l
  induction l with
  | nil => intro acc x; simp
  | cons a l ih =>
      intro acc x
      rw [List.foldl_cons, ih, hf]
      simp [Finset.mem_union]
      tauto

/-- Two `foldl`s with pointwise-equal step functions agree. -/
lemma foldl_congr_fun {f g : Finset ℕ → ℕ → Finset ℕ} (h : ∀ acc i, f acc i = g acc i) :
    ∀ (l : List ℕ) (acc : Finset ℕ), l.foldl f acc = l.foldl g acc := by
  intro l
  induction l with
  | nil => intro acc; rfl
  | cons a l ih =>
      intro acc
      rw [List.foldl_cons, List.foldl_cons, h, ih]

/-- Membership in `discPt`, spelled out. -/
lemma mem_discPt {w h r gx gy i j q : ℕ} :
    q ∈ discPt w h r gx gy i j ↔
      ((j : ℤ) - r) * ((j : ℤ) - r) + ((i : ℤ) - r) * ((i : ℤ) - r) ≤ (r : ℤ) * r ∧
      0 ≤ (gx : ℤ) + ((j : ℤ) - r) ∧ (gx : ℤ) + ((j : ℤ) - r) < w ∧
      0 ≤ (gy : ℤ) + ((i : ℤ) - r) ∧ (gy : ℤ) + ((i : ℤ) - r) < h ∧
      q = ((gy : ℤ) + ((i : ℤ) - r)).toNat * w + ((gx : ℤ) + ((j : ℤ) - r)).toNat := by
  unfold discPt
  split_ifs with h1 h2 <;> simp_all

/-- The inner offset loops of the dilation equal the union of the offset
stamps. -/
lemma discStamp_eq_union (w h r gx gy : ℕ) :
    discStamp w h r gx gy =
      (List.range (2 * r + 1)).foldl
        (fun acc i => acc ∪ (List.range (2 * r + 1)).foldl
          (fun acc j => acc ∪ discPt w h r gx gy i j) ∅) ∅ := by
  unfold discStamp
  have hbody : ∀ (i : ℕ) (acc : Finset ℕ) (j : ℕ),
      (if ((j : ℤ) - r) * ((j : ℤ) - r) + ((i : ℤ) - r) * ((i : ℤ) - r) ≤ (r : ℤ) * r then
        if 0 ≤ (gx : ℤ) + ((j : ℤ) - r) ∧ (gx : ℤ) + ((j : ℤ) - r) < w ∧
            0 ≤ (gy : ℤ) + ((i : ℤ) - r) ∧ (gy : ℤ) + ((i : ℤ) - r) < h then
          insert (((gy : ℤ) + ((i : ℤ) - r)).toNat * w + ((gx : ℤ) + ((j : ℤ) - r)).toNat) acc
        else acc
      else acc) = acc ∪ discPt w h r gx gy i j := by
    intro i acc j
    unfold discPt
    split_ifs <;> simp [Finset.insert_eq, Finset.union_comm]
  refine foldl_congr_fun ?_ _ _
  intro acc i
  rw [foldl_congr_fun (hbody i) _ acc]
  exact foldl_union_acc (fun _ _ => rfl) _ acc

/-- Membership in `discStamp`, through the offset loops. -/
lemma mem_discStamp {w h r gx gy q : ℕ} :
    q ∈ discStamp w h r gx gy ↔
      ∃ i < 2 * r + 1, ∃ j < 2 * r + 1, q ∈ discPt w h r gx gy i j := by
  rw [discStamp_eq_union]
  rw [mem_foldl_union (fun _ _ => rfl)]
  simp only [Finset.not_mem_empty, false_or, List.mem_range]
  constructor
  · rintro ⟨i, hi, hq⟩
    rw [mem_foldl_union (fun _ _ => rfl)] at hq
    simp only [Finset.not_mem_empty, false_or, List.mem_range] at hq
    obtain ⟨j, hj, hq⟩ := hq
    exact ⟨i, hi, j, hj, hq⟩
  · rintro ⟨i, hi, j, hj, hq⟩
    refine ⟨i, hi, ?_⟩
    rw [mem_foldl_union (fun _ _ => rfl)]
    simp only [Finset.not_mem_empty, false_or, List.mem_range]
    exact ⟨j, hj, hq⟩

/-- Membership in `growSelection`: the original selection plus the disc stamps
of the originally selected in-bounds pixels (growth reads the pre-growth copy,
so stamps never chain). -/
lemma mem_growSelection {w h r : ℕ} {selected : Finset ℕ} {q : ℕ} :
    q ∈ growSelection w h r selected ↔
      q ∈ selected ∨ ∃ gy < h, ∃ gx < w,
        gy * w + gx ∈ selected ∧ q ∈ discStamp w h r gx gy := by
  have hin : ∀ (gy : ℕ) (acc : Finset ℕ) (gx : ℕ),
      (if gy * w + gx ∈ selected then acc ∪ discStamp w h r gx gy else acc) =
        acc ∪ (if gy * w + gx ∈ selected then discStamp w h r gx gy else ∅) := by
    intro gy acc gx
    split_ifs <;> simp
  have hout : growSelection w h r selected =
      (List.range h).foldl (fun acc gy =>
        acc ∪ (List.range w).foldl (fun acc gx =>
          acc ∪ (if gy * w + gx ∈ selected then discStamp w h r gx gy else ∅)) ∅)
        selected := by
    unfold growSelection
    refine foldl_congr_fun ?_ _ _
    intro acc gy
    rw [foldl_congr_fun (hin gy) _ acc]
    exact foldl_union_acc (fun _ _ => rfl) _ acc
  have hrow : ∀ gy : ℕ,
      (q ∈ (List.range w).foldl (fun acc gx =>
          acc ∪ (if gy * w + gx ∈ selected then discStamp w h r gx gy else ∅)) ∅) ↔
        ∃ gx < w, gy * w + gx ∈ selected ∧ q ∈ discStamp w h r gx gy := by
    intro gy
    rw [mem_foldl_union (fun _ _ => rfl)]
    simp only [Finset.not_mem_empty, false_or, List.mem_range]
    constructor
    · rintro ⟨gx, hgx, hq⟩
      by_cases hmem : gy * w + gx ∈ selected
      · rw [if_pos hmem] at hq
        exact ⟨gx, hgx, hmem, hq⟩
      · rw [if_neg hmem] at hq
        simp at hq
    · rintro ⟨gx, hgx, hmem, hq⟩
      refine ⟨gx, hgx, ?_⟩
      rw [if_pos hmem]
      exact hq
  rw [hout, mem_foldl_union (fun _ _ => rfl)]
  simp only [List.mem_range]
  constructor
  · rintro (hq | ⟨gy, hgy, hq⟩)
    · exact Or.inl hq
    · exact Or.inr ⟨gy, hgy, (hrow gy).mp hq⟩
  · rintro (hq | ⟨gy, hgy, hq⟩)
    · exact Or.inl hq
    · exact Or.inr ⟨gy, hgy, (hrow gy).mpr hq⟩

/-- **C5**: the morphological growth does not cascade: the grown selection is
exactly the set of in-bounds pixels within Euclidean distance `r` of some
pixel of the original (pre-growth) selection.  In particular an isolated pixel
grows to exactly its disc of radius `r`. -/
theorem growSelection_eq_dilation (w h r : ℕ) (selected : Finset ℕ)
    (hsel : ∀ p ∈ selected, p < w * h) (hr : 0 < r) :
    growSelection w h r selected =
      (Finset.range (w * h)).filter (fun q =>
        ∃ p ∈ selected,
          (((q % w : ℕ) : ℤ) - ((p % w : ℕ) : ℤ)) ^ 2 +
            (((q / w : ℕ) : ℤ) - ((p / w : ℕ) : ℤ)) ^ 2 ≤ (r : ℤ) ^ 2) := by
  ext q
  rw [mem_growSelection, Finset.mem_filter, Finset.mem_range]
  constructor
  · rintro (hq | ⟨gy, hgy, gx, hgx, hmem, hq⟩)
    · refine ⟨hsel q hq, q, hq, ?_⟩
      simp only [sub_self]
      positivity
    · have hw : 0 < w := by omega
      obtain ⟨i, hi, j, hj, hd⟩ := mem_discStamp.mp hq
      obtain ⟨hdist, hx0, hxw, hy0, hyh, hqe⟩ := mem_discPt.mp hd
      have hnxw : ((gx : ℤ) + ((j : ℤ) - r)).toNat < w := (Int.toNat_lt hx0).mpr hxw
      have hnyh : ((gy : ℤ) + ((i : ℤ) - r)).toNat < h := (Int.toNat_lt hy0).mpr hyh
      have hnxc : ((((gx : ℤ) + ((j : ℤ) - r)).toNat : ℕ) : ℤ) = (gx : ℤ) + ((j : ℤ) - r) :=
        Int.toNat_of_nonneg hx0
      have hnyc : ((((gy : ℤ) + ((i : ℤ) - r)).toNat : ℕ) : ℤ) = (gy : ℤ) + ((i : ℤ) - r) :=
        Int.toNat_of_nonneg hy0
      set nx : ℕ := ((gx : ℤ) + ((j : ℤ) - r)).toNat with hnx
      set ny : ℕ := ((gy : ℤ) + ((i : ℤ) - r)).toNat with hny
      have hqlt : q < w * h := by
        rw [hqe]
        have := seed_lt hnxw hnyh
        omega
      have hqmod : q % w = nx := by
        rw [hqe, Nat.add_comm, Nat.add_mul_mod_self_right]
        exact Nat.mod_eq_of_lt hnxw
      have hqdiv : q / w = ny := by
        rw [hqe, Nat.add_comm, Nat.add_mul_div_right _ _ hw, Nat.div_eq_of_lt hnxw]
        omega
      have hpmod : (gy * w + gx) % w = gx := by
        rw [Nat.add_comm, Nat.add_mul_mod_self_right]
        exact Nat.mod_eq_of_lt hgx
      have hpdiv : (gy * w + gx) / w = gy := by
        rw [Nat.add_comm, Nat.add_mul_div_right _ _ hw, Nat.div_eq_of_lt hgx]
        omega
      refine ⟨hqlt, gy * w + gx, hmem, ?_⟩
      rw [hqmod, hqdiv, hpmod, hpdiv]
      have hex : ((nx : ℤ) - gx) = (j : ℤ) - r := by rw [hnx, hnxc]; ring
      have hey : ((ny : ℤ) - gy) = (i : ℤ) - r := by rw [hny, hnyc]; ring
      rw [hex, hey]
      calc ((j : ℤ) - r) ^ 2 + ((i : ℤ) - r) ^ 2
          = ((j : ℤ) - r) * ((j : ℤ) - r) + ((i : ℤ) - r) * ((i : ℤ) - r) := by ring
        _ ≤ (r : ℤ) * r := hdist
        _ = (r : ℤ) ^ 2 := by ring
  · rintro ⟨hqlt, p, hp, hdist⟩
    have hplt : p < w * h := hsel p hp
    have hw : 0 < w := by
      rcases Nat.eq_zero_or_pos w with h0 | h0
      · subst h0; simp at hplt
      · exact h0
    have hgx : p % w < w := Nat.mod_lt _ hw
    have hgy : p / w < h := by
      rw [Nat.div_lt_iff_lt_mul hw]
      have : w * h = h * w := Nat.mul_comm w h
      omega
    have hpe : p / w * w + p % w = p := by
      have := Nat.div_add_mod p w
      have hc : p / w * w = w * (p / w) := Nat.mul_comm _ _
      omega
    refine Or.inr ⟨p / w, hgy, p % w, hgx, by rw [hpe]; exact hp, ?_⟩
    rw [mem_discStamp]
    have hrz : (0 : ℤ) ≤ (r : ℤ) := by positivity
    set dxz : ℤ := ((q % w : ℕ) : ℤ) - ((p % w : ℕ) : ℤ) with hdxz
    set dyz : ℤ := ((q / w : ℕ) : ℤ) - ((p / w : ℕ) : ℤ) with hdyz
    have hdxu : dxz ≤ r := by nlinarith [sq_nonneg dyz, sq_nonneg (dxz - r)]
    have hdxl : -(r : ℤ) ≤ dxz := by nlinarith [sq_nonneg dyz, sq_nonneg (dxz + r)]
    have hdyu : dyz ≤ r := by nlinarith [sq_nonneg dxz, sq_nonneg (dyz - r)]
    have hdyl : -(r : ℤ) ≤ dyz := by nlinarith [sq_nonneg dxz, sq_nonneg (dyz + r)]
    refine ⟨(dyz + r).toNat, ?_, (dxz + r).toNat, ?_, ?_⟩
    · have h2 := Int.toNat_le.mpr (by push_cast; linarith : dyz + r ≤ ((2 * r : ℕ) : ℤ))
      omega
    · have h2 := Int.toNat_le.mpr (by push_cast; linarith : dxz + r ≤ ((2 * r : ℕ) : ℤ))
      omega
    · have hjc : (((dxz + r).toNat : ℕ) : ℤ) = dxz + r := Int.toNat_of_nonneg (by linarith)
      have hic : (((dyz + r).toNat : ℕ) : ℤ) = dyz + r := Int.toNat_of_nonneg (by linarith)
      rw [mem_discPt, hjc, hic]
      have hexj : dxz + r - r = dxz := by ring
      have hexi : dyz + r - r = dyz := by ring
      rw [hexj, hexi]
      have hgxe : ((p % w : ℕ) : ℤ) + dxz = ((q % w : ℕ) : ℤ) := by rw [hdxz]; ring
      have hgye : ((p / w : ℕ) : ℤ) + dyz = ((q / w : ℕ) : ℤ) := by rw [hdyz]; ring
      rw [hgxe, hgye]
      have hqm : q % w < w := Nat.mod_lt _ hw
      have hqd : q / w < h := by
        rw [Nat.div_lt_iff_lt_mul hw]
        have : w * h = h * w := Nat.mul_comm w h
        omega
      refine ⟨?_, ?_, ?_, ?_, ?_, ?_⟩
      · calc dxz * dxz + dyz * dyz = dxz ^ 2 + dyz ^ 2 := by ring
          _ ≤ (r : ℤ) ^ 2 := hdist
          _ = (r : ℤ) * r := by ring
      · positivity
      · exact_mod_cast hqm
      · positivity
      · exact_mod_cast hqd
      · rw [Int.toNat_natCast, Int.toNat_natCast]
        have := Nat.div_add_mod q w
        have hc : q / w * w = w * (q / w) := Nat.mul_comm _ _
        omega

/-- Witness for `growSelection_eq_dilation`: an isolated pixel at the center of
a 3×3 grid grows with radius 1 to exactly its disc (the plus shape). -/
theorem growSelection_eq_dilation_witness :
    (∀ p ∈ ({4} : Finset ℕ), p < 3 * 3) ∧ 0 < 1 ∧
      growSelection 3 3 1 {4} =
        (Finset.range (3 * 3)).filter (fun q =>
          ∃ p ∈ ({4} : Finset ℕ),
            (((q % 3 : ℕ) : ℤ) - ((p % 3 : ℕ) : ℤ)) ^ 2 +
              (((q / 3 : ℕ) : ℤ) - ((p / 3 : ℕ) : ℤ)) ^ 2 ≤ ((1 : ℕ) : ℤ) ^ 2) :=
  ⟨by decide, by decide, growSelection_eq_dilation 3 3 1 {4} (by decide) (by decide)⟩

end Shaded
